import Mathlib

/-!
Verification of the Agentic-Framework-Comparison repository core.

Shallow embedding of the repository's algorithmic core:
  * `src/sanitize.py`          — output sanitizer (`sanitize_completion` and helpers)
  * `src/results_tracker.py`   — pass@k estimator and metrics ledger
  * `src/inference.py`         — task selector and backend selection
  * `src/scripts/*.py`         — backend adapters' `generate_one_completion`

Python strings are modelled as `List Char`.  Python whitespace / line-break
sets are modelled by their ASCII members (the repository only handles ASCII
model output in the modelled paths).  External effects (the OpenAI/network
call, the PRNG shuffle, the file system) are modelled as explicit parameters.
-/

namespace AFC

/-- Backtick character (U+0060), written via its code point. -/
def btChar : Char := Char.ofNat 96

/-- Vertical-tab character. -/
def vtChar : Char := Char.ofNat 11

/-- Form-feed character. -/
def ffChar : Char := Char.ofNat 12

/-- Carriage-return character. -/
def crChar : Char := Char.ofNat 13

/-- Test for the backtick character. -/
def isTick (c : Char) : Bool := c == btChar

/-- ASCII whitespace as stripped by Python `str.strip()` / matched by `\s`. -/
def isWsB (c : Char) : Bool :=
  c == ' ' || c == '\t' || c == '\n' || c == crChar || c == vtChar || c == ffChar

/-- ASCII line boundaries recognised by Python `str.splitlines()`. -/
def isLineBreakB (c : Char) : Bool :=
  c == '\n' || c == crChar || c == vtChar || c == ffChar

/-- Characters counted by the indentation regex `^[ \t]*`. -/
def isIndentChar (c : Char) : Bool := c == ' ' || c == '\t'

/-- ASCII word characters, as matched by the regex class `\w`. -/
def isWordChar (c : Char) : Bool := c.isAlphanum || c == '_'

/-- Python `str.rstrip()`: remove trailing whitespace. -/
def rstripWs : List Char → List Char
  | [] => []
  | c :: rest =>
    let r := rstripWs rest
    if r.isEmpty && isWsB c then [] else c :: r

/-- Python `str.strip()`: remove leading and trailing whitespace. -/
def stripWs (l : List Char) : List Char := rstripWs (l.dropWhile isWsB)

/-- Worker for `splitLines`; `acc` is the reversed current line. -/
def splitLinesGo : List Char → List Char → List (List Char)
  | acc, [] => if acc.isEmpty then [] else [acc.reverse]
  | acc, '\u000d' :: '\n' :: rest => acc.reverse :: splitLinesGo [] rest
  | acc, c :: rest =>
    if isLineBreakB c then acc.reverse :: splitLinesGo [] rest
    else splitLinesGo (c :: acc) rest

/-- Python `str.splitlines()` (ASCII boundaries; `\r\n` is one boundary,
and a trailing boundary produces no empty final line). -/
def splitLines (t : List Char) : List (List Char) := splitLinesGo [] t

/-- Python `"\n".join(lines)`. -/
def joinNl : List (List Char) → List Char
  | [] => []
  | [l] => l
  | l :: rest => l ++ '\n' :: joinNl rest

/-- Index of the first occurrence of `pat` in the list (Python `str.find`,
restricted to a found/not-found option). -/
def findSubIdx (pat : List Char) : List Char → Option Nat
  | [] => if pat.isEmpty then some 0 else none
  | c :: rest =>
    if (c :: rest).take pat.length = pat then some 0
    else (findSubIdx pat rest).map (· + 1)

/-- Three backticks, the markdown fence delimiter. -/
def ticks : List Char := [btChar, btChar, btChar]

/-- Does the list start with three backticks (Python `startswith("` + "``" + `")`)? -/
def startsTicks : List Char → Bool
  | b1 :: b2 :: b3 :: _ => isTick b1 && isTick b2 && isTick b3
  | _ => false

/-- Do the first two characters exist and equal backticks? -/
def startsTicksTwo : List Char → Bool
  | b1 :: b2 :: _ => isTick b1 && isTick b2
  | _ => false

/-- Does the list end with three backticks? -/
def endsTicks (l : List Char) : Bool := startsTicks (l.drop (l.length - 3))

/-- Does the list contain three consecutive backticks anywhere? -/
def hasTicks : List Char → Bool
  | b1 :: b2 :: b3 :: rest => (isTick b1 && isTick b2 && isTick b3) || hasTicks (b2 :: b3 :: rest)
  | _ => false

/-- Python `text.replace("` + "``" + `", "")`: delete non-overlapping fence
delimiters scanning left to right. -/
def replaceTicks : List Char → List Char
  | [] => []
  | [c] => [c]
  | [c, d] => [c, d]
  | c :: d :: e :: rest =>
    if isTick c && isTick d && isTick e then replaceTicks rest
    else c :: replaceTicks (d :: e :: rest)

/-- Length of the leading whitespace run (regex `\s*` at the current point). -/
def wsRunLen (l : List Char) : Nat := (l.takeWhile isWsB).length

/-- The six letters of `python`, used by the fence regex's optional tag. -/
def pythonTag : List Char := ['p', 'y', 't', 'h', 'o', 'n']

/-- Case-insensitive test for a leading `python` tag (regex `(?:python)?`
under `re.IGNORECASE`). -/
def startsWithPythonCI (l : List Char) : Bool :=
  (l.take 6).map Char.toLower = pythonTag

/-- Regex continuation after the opening delimiter and optional tag:
`\s*([\s\S]*?)\s*` followed by a closing fence.  The leading `\s*` is
greedy, the group is lazy, so the group runs from the first non-whitespace
character to the last non-whitespace character before the first closing
fence.  Returns the group, or `none` when no closing fence exists. -/
def interiorOf (u : List Char) : Option (List Char) :=
  let v := u.drop (wsRunLen u)
  match findSubIdx ticks v with
  | none => none
  | some r => some (rstripWs (v.take r))

/-- Scanner for `re.findall` of the fence pattern: try each start position
left to right; at an opening fence, consume the optional `python` tag and
look for an interior; on failure resume one character later.  Returns the
first match's group. -/
def fencedScan : List Char → Option (List Char)
  | b1 :: b2 :: b3 :: rest3 =>
    if isTick b1 && isTick b2 && isTick b3 then
      let u := if startsWithPythonCI rest3 then rest3.drop 6 else rest3
      match interiorOf u with
      | some g => some g
      | none => fencedScan (b2 :: b3 :: rest3)
    else fencedScan (b2 :: b3 :: rest3)
  | _ => none

/-- Embedding of `_strip_code_fences` (src/sanitize.py:13-22): strip, prefer
the first fenced block's interior, else unwrap a whole-text fence pair,
else pass through. -/
def stripCodeFences (t0 : List Char) : List Char :=
  let t := stripWs t0
  match fencedScan t with
  | some g => stripWs g
  | none =>
    if startsTicks t && endsTicks t then stripWs ((t.drop 3).take (t.length - 6))
    else t

/-- Loop body of the trailing-fence pruning in `sanitize_completion`
(src/sanitize.py:58-62): keep lines until one whose stripped form starts a
fence. -/
def takeUntilFence : List (List Char) → List (List Char)
  | [] => []
  | ln :: rest => if startsTicks (stripWs ln) then [] else ln :: takeUntilFence rest

/-- Stage 2 of `sanitize_completion` (src/sanitize.py:57-63): prune from the
first fence line, re-join, trim trailing whitespace, force one newline. -/
def pruneTrailingFence (t : List Char) : List Char :=
  rstripWs (joinNl (takeUntilFence (splitLines t))) ++ ['\n']

/-- Regex `^\s*def\s+\w+\s*\(.*\)\s*:\s*$` (src/sanitize.py:35), decided by
parsing from the left up to `(` and from the right over `\s*:\s*)`. -/
def isDefLine (l : List Char) : Bool :=
  match l.dropWhile isWsB with
  | 'd' :: 'e' :: 'f' :: r1 =>
    match r1 with
    | c1 :: r1' =>
      if isWsB c1 then
        let r2 := r1'.dropWhile isWsB
        match r2 with
        | c2 :: _ =>
          if isWordChar c2 then
            let r3 := (r2.dropWhile isWordChar).dropWhile isWsB
            match r3 with
            | '(' :: r4 =>
              match (r4.reverse.dropWhile isWsB) with
              | ':' :: rev2 =>
                match rev2.dropWhile isWsB with
                | ')' :: _ => true
                | _ => false
              | _ => false
            | _ => false
          else false
        | [] => false
      else false
    | [] => false
  | _ => false

/-- Length of the leading `[ \t]*` run of a line. -/
def indentLen (l : List Char) : Nat := (l.takeWhile isIndentChar).length

/-- Minimum of `indentLen` over a non-empty list of lines (Python `min`). -/
def minIndentList : List (List Char) → Nat
  | [] => 0
  | [l] => indentLen l
  | l :: l' :: rest => Nat.min (indentLen l) (minIndentList (l' :: rest))

/-- Four spaces, the body-indent unit. -/
def sp4 : List Char := [' ', ' ', ' ', ' ']

/-- Does the list end with a newline character (Python `endswith("\n")`)? -/
def endsNl (l : List Char) : Bool :=
  match l.getLast? with
  | some c => c == '\n'
  | none => false

/-- Embedding of `_strip_signature_if_present` (src/sanitize.py:25-50): drop
a leading `def ...:` header, else establish a 4-column indentation floor;
then force a trailing newline (skipped entirely on empty input). -/
def stripSignatureIfPresent (t : List Char) : List Char :=
  match splitLines t with
  | [] => t
  | l0 :: rest =>
    let t2 :=
      if isDefLine l0 then
        (joinNl rest).dropWhile (· == '\n')
      else
        let ne := (l0 :: rest).filter (fun ln => !(stripWs ln).isEmpty)
        if ne.isEmpty then t
        else if minIndentList ne < 4 then
          joinNl ((l0 :: rest).map (fun ln => if !(stripWs ln).isEmpty then sp4 ++ ln else ln))
        else t
    if endsNl t2 then t2 else t2 ++ ['\n']

/-- Embedding of `sanitize_completion` (src/sanitize.py:53-69): fence
extraction, trailing-fence pruning, signature stripping / re-indentation,
residual-fence scrub. -/
def sanitize_completion (t : List Char) : List Char :=
  let t1 := stripCodeFences t
  let t2 := pruneTrailingFence t1
  let t3 := stripSignatureIfPresent t2
  rstripWs (replaceTicks t3) ++ ['\n']

end AFC

namespace AFC

/-! Lemmas about backtick fences. -/

lemma hasTicks_cons (c : Char) (l : List Char) :
    hasTicks (c :: l) = ((isTick c && startsTicksTwo l) || hasTicks l) := by
  match l with
  | [] => simp [hasTicks, startsTicksTwo]
  | [d] => simp [hasTicks, startsTicksTwo]
  | d :: e :: r => simp [hasTicks, startsTicksTwo, Bool.and_assoc]

lemma startsTicksTwo_append {u : List Char} (v : List Char)
    (h : startsTicksTwo u = true) : startsTicksTwo (u ++ v) = true := by
  match u with
  | [] => simp [startsTicksTwo] at h
  | [d] => simp [startsTicksTwo] at h
  | d :: e :: r => simpa [startsTicksTwo] using h

lemma hasTicks_append_left {u : List Char} (v : List Char)
    (h : hasTicks u = true) : hasTicks (u ++ v) = true := by
  induction u with
  | nil => simp [hasTicks] at h
  | cons c r ih =>
    rw [hasTicks_cons] at h
    rw [List.cons_append, hasTicks_cons]
    rcases Bool.or_eq_true_iff.mp h with h1 | h2
    · have hc := Bool.and_elim_left h1
      have ht := startsTicksTwo_append v (Bool.and_elim_right h1)
      simp [hc, ht]
    · simp [ih h2]

lemma hasTicks_append_right (u : List Char) {v : List Char}
    (h : hasTicks v = true) : hasTicks (u ++ v) = true := by
  induction u with
  | nil => simpa using h
  | cons c r ih =>
    rw [List.cons_append, hasTicks_cons]
    simp [ih]

lemma replaceTicks_cons_not_tick {a : Char} (l : List Char)
    (h : isTick a = false) : replaceTicks (a :: l) = a :: replaceTicks l := by
  match l with
  | [] => simp [replaceTicks]
  | [d] => simp [replaceTicks]
  | d :: e :: r => simp [replaceTicks, h]

lemma startsTicksTwo_cons_false (X : List Char) {d : Char} (hd : isTick d = false) :
    startsTicksTwo (d :: X) = false := by
  cases X with
  | nil => simp [startsTicksTwo]
  | cons b r => simp [startsTicksTwo, hd]

theorem replaceTicks_no_ticks : ∀ l : List Char, hasTicks (replaceTicks l) = false
  | [] => rfl
  | [c] => by simp [replaceTicks, hasTicks]
  | [c, d] => by simp [replaceTicks, hasTicks]
  | c :: d :: e :: rest => by
    by_cases h : (isTick c && isTick d && isTick e) = true
    · rw [show replaceTicks (c :: d :: e :: rest) = replaceTicks rest by simp [replaceTicks, h]]
      exact replaceTicks_no_ticks rest
    · have hrw : replaceTicks (c :: d :: e :: rest) = c :: replaceTicks (d :: e :: rest) := by
        simp only [replaceTicks, if_neg h]
      rw [hrw, hasTicks_cons, replaceTicks_no_ticks (d :: e :: rest), Bool.or_false]
      by_cases hc : isTick c = true
      · suffices hst : startsTicksTwo (replaceTicks (d :: e :: rest)) = false by simp [hst]
        by_cases hd : isTick d = true
        · have he : isTick e = false := by
            cases he : isTick e with
            | false => rfl
            | true => exact absurd (by simp [hc, hd, he, Bool.and_assoc]) h
          have hrw2 : replaceTicks (d :: e :: rest) = d :: e :: replaceTicks rest := by
            match rest with
            | [] => simp [replaceTicks]
            | r1 :: rs =>
              rw [show replaceTicks (d :: e :: r1 :: rs) = d :: replaceTicks (e :: r1 :: rs) by
                    simp [replaceTicks, he],
                  replaceTicks_cons_not_tick _ he]
          rw [hrw2]
          simp [startsTicksTwo, he]
        · have hd' : isTick d = false := by
            cases hdv : isTick d with
            | false => rfl
            | true => exact absurd hdv hd
          rw [replaceTicks_cons_not_tick _ hd']
          exact startsTicksTwo_cons_false _ hd'
      · simp [Bool.eq_false_iff.mpr hc]

lemma rstripWs_append_exists : ∀ l : List Char, ∃ t, rstripWs l ++ t = l
  | [] => ⟨[], rfl⟩
  | c :: rest => by
    obtain ⟨t, ht⟩ := rstripWs_append_exists rest
    by_cases h : (rstripWs rest).isEmpty && isWsB c
    · refine ⟨c :: rest, ?_⟩
      simp [rstripWs, h]
    · refine ⟨t, ?_⟩
      have : rstripWs (c :: rest) = c :: rstripWs rest := by
        simp only [rstripWs]
        rw [if_neg h]
      rw [this, List.cons_append, ht]

lemma hasTicks_of_append_false {u v : List Char}
    (h : hasTicks (u ++ v) = false) : hasTicks u = false := by
  cases hu : hasTicks u with
  | false => rfl
  | true => rw [hasTicks_append_left v hu] at h; exact absurd h (by simp)

lemma hasTicks_rstripWs {l : List Char} (h : hasTicks l = false) :
    hasTicks (rstripWs l) = false := by
  obtain ⟨t, ht⟩ := rstripWs_append_exists l
  rw [← ht] at h
  exact hasTicks_of_append_false h

lemma startsTicksTwo_append_singleton {l : List Char} {c : Char}
    (h : startsTicksTwo l = false) (hc : isTick c = false) :
    startsTicksTwo (l ++ [c]) = false := by
  match l with
  | [] => simp [startsTicksTwo, hc]
  | [d] => simp [startsTicksTwo] at h ⊢; intro hd; simpa [hd] using hc
  | d :: e :: r => simpa [startsTicksTwo] using h

lemma hasTicks_append_singleton {l : List Char} {c : Char}
    (h : hasTicks l = false) (hc : isTick c = false) :
    hasTicks (l ++ [c]) = false := by
  induction l with
  | nil => simp [hasTicks]
  | cons a r ih =>
    rw [hasTicks_cons] at h
    have h1 : (isTick a && startsTicksTwo r) = false := Bool.or_eq_false_iff.mp h |>.1
    have h2 : hasTicks r = false := Bool.or_eq_false_iff.mp h |>.2
    rw [List.cons_append, hasTicks_cons, ih h2, Bool.or_false]
    by_cases ha : isTick a = true
    · have hr : startsTicksTwo r = false := by
        cases hr : startsTicksTwo r with
        | false => rfl
        | true => rw [ha, hr] at h1; exact absurd h1 (by simp)
      simp [startsTicksTwo_append_singleton hr hc]
    · simp [Bool.eq_false_iff.mpr ha]

end AFC

namespace AFC

/-- Core fact shared by several claims: the residual-fence scrub at the end
of `sanitize_completion` leaves no fence delimiter in the output. -/
lemma sanitize_no_ticks (t : List Char) : hasTicks (sanitize_completion t) = false :=
  hasTicks_append_singleton (hasTicks_rstripWs (replaceTicks_no_ticks _)) (by decide)

/-- C7: for every input string, the output of `sanitize_completion` contains
no fence-delimiter substring (no occurrence of three consecutive backticks),
in particular for every input that contains a fenced block. -/
theorem sanitize_completion_no_fence_delimiters (t : List Char) :
    hasTicks (sanitize_completion t) = false := sanitize_no_ticks t

/-! Generic list lemmas supporting the idempotence analysis. -/

lemma dropWhile_append_all {p : Char → Bool} {u : List Char} (v : List Char)
    (h : ∀ c ∈ u, p c = true) : (u ++ v).dropWhile p = v.dropWhile p := by
  induction u with
  | nil => rfl
  | cons a t ih =>
    rw [List.cons_append, List.dropWhile_cons, if_pos (h a (by simp))]
    exact ih (fun c hc => h c (by simp [hc]))

lemma getLast?_append_right (l1 : List Char) {l2 : List Char} (h : l2 ≠ []) :
    (l1 ++ l2).getLast? = l2.getLast? := by
  induction l1 with
  | nil => rfl
  | cons a t ih =>
    cases ht : t ++ l2 with
    | nil => exact absurd (List.append_eq_nil.mp ht).2 h
    | cons b r => rw [List.cons_append, ht, List.getLast?_cons_cons, ← ht, ih]

lemma rstripWs_append_ws {l : List Char} {w : Char} (hw : isWsB w = true) :
    rstripWs (l ++ [w]) = rstripWs l := by
  induction l with
  | nil => simp [rstripWs, hw]
  | cons a t ih =>
    rw [List.cons_append]
    show rstripWs (a :: (t ++ [w])) = rstripWs (a :: t)
    simp only [rstripWs, ih]

lemma rstripWs_cons (a : Char) (t : List Char) :
    rstripWs (a :: t) = if (rstripWs t).isEmpty && isWsB a then [] else a :: rstripWs t :=
  rfl

lemma rstripWs_eq_self {l : List Char}
    (h : ∀ c, l.getLast? = some c → isWsB c = false) : rstripWs l = l := by
  induction l with
  | nil => rfl
  | cons a t ih =>
    cases t with
    | nil =>
      have ha : isWsB a = false := h a rfl
      simp [rstripWs_cons, rstripWs, ha]
    | cons b r =>
      have ht : rstripWs (b :: r) = b :: r := by
        refine ih (fun c hc => h c ?_)
        rw [List.getLast?_cons_cons]
        exact hc
      rw [rstripWs_cons, ht]
      simp

lemma stripWs_eq_self {l : List Char}
    (hh : ∀ c, l.head? = some c → isWsB c = false)
    (hl : ∀ c, l.getLast? = some c → isWsB c = false) : stripWs l = l := by
  have hd : l.dropWhile isWsB = l := by
    cases l with
    | nil => rfl
    | cons a t => rw [List.dropWhile_cons, if_neg (by simp [hh a rfl])]
  rw [stripWs, hd]
  exact rstripWs_eq_self hl

lemma hasTicks_dropWhile {p : Char → Bool} {l : List Char}
    (h : hasTicks l = false) : hasTicks (l.dropWhile p) = false := by
  cases hv : hasTicks (l.dropWhile p) with
  | false => rfl
  | true =>
    have := hasTicks_append_right (l.takeWhile p) hv
    rw [List.takeWhile_append_dropWhile] at this
    rw [this] at h
    exact absurd h (by simp)

lemma hasTicks_stripWs {l : List Char} (h : hasTicks l = false) :
    hasTicks (stripWs l) = false :=
  hasTicks_rstripWs (hasTicks_dropWhile h)

lemma hasTicks_of_startsTicks {l : List Char} (h : startsTicks l = true) :
    hasTicks l = true := by
  match l with
  | [] => simp [startsTicks] at h
  | [a] => simp [startsTicks] at h
  | [a, b] => simp [startsTicks] at h
  | a :: b :: c :: r => rw [hasTicks]; rw [startsTicks] at h; simp [h]

lemma startsTicks_eq_false_of_no_ticks {l : List Char} (h : hasTicks l = false) :
    startsTicks l = false := by
  cases hv : startsTicks l with
  | false => rfl
  | true => rw [hasTicks_of_startsTicks hv] at h; exact absurd h (by simp)

end AFC

namespace AFC

/-! Lemmas about `splitLines`, `fencedScan` and `replaceTicks` on clean input. -/

lemma splitLinesGo_cons_nolb (acc : List Char) {c : Char} (rest : List Char)
    (hc : isLineBreakB c = false) :
    splitLinesGo acc (c :: rest) = splitLinesGo (c :: acc) rest := by
  have hcr : c ≠ crChar := by
    intro h
    rw [h] at hc
    exact absurd hc (by decide)
  rw [splitLinesGo.eq_def]
  split
  · rename_i heq
    exact absurd heq (by simp)
  · rename_i heq
    injection heq with h1a h1b
    exact absurd h1a (by simpa [show ('\u000d' : Char) = crChar from by decide] using hcr)
  · rename_i heq
    injection heq with h2a h2b
    subst h2a
    subst h2b
    rw [if_neg (by simp [hc])]

lemma splitLinesGo_cons_nl (acc : List Char) (rest : List Char) :
    splitLinesGo acc ('\n' :: rest) = acc.reverse :: splitLinesGo [] rest := by
  rw [splitLinesGo.eq_def]
  split
  · rename_i heq
    exact absurd heq (by simp)
  · rename_i heq
    injection heq with h1a h1b
    exact absurd h1a (by decide)
  · rename_i heq
    injection heq with h2a h2b
    subst h2a
    subst h2b
    rw [if_pos (by decide)]

lemma splitLinesGo_append_nl {l : List Char} (acc : List Char)
    (h : ∀ c ∈ l, isLineBreakB c = false) :
    splitLinesGo acc (l ++ ['\n']) = [acc.reverse ++ l] := by
  induction l generalizing acc with
  | nil =>
    rw [List.nil_append, splitLinesGo_cons_nl, show splitLinesGo [] [] = [] from rfl]
    simp
  | cons a t ih =>
    rw [List.cons_append, splitLinesGo_cons_nolb acc _ (h a (by simp)),
        ih (a :: acc) (fun c hc => h c (by simp [hc]))]
    simp

lemma splitLinesGo_nolb_ne {l : List Char} (acc : List Char)
    (h : ∀ c ∈ l, isLineBreakB c = false) (hne : l ≠ [] ∨ acc ≠ []) :
    splitLinesGo acc l = [acc.reverse ++ l] := by
  induction l generalizing acc with
  | nil =>
    have hacc : acc ≠ [] := by
      rcases hne with h1 | h2
      · exact absurd rfl h1
      · exact h2
    simp [splitLinesGo, hacc]
  | cons a t ih =>
    rw [splitLinesGo_cons_nolb acc _ (h a (by simp)),
        ih (a :: acc) (fun c hc => h c (by simp [hc])) (Or.inr (by simp))]
    simp

/-- A non-empty line-break-free string splits into exactly itself. -/
lemma splitLines_nolb {l : List Char} (hne : l ≠ [])
    (h : ∀ c ∈ l, isLineBreakB c = false) : splitLines l = [l] := by
  rw [splitLines, splitLinesGo_nolb_ne [] h (Or.inl hne)]
  simp

/-- A line-break-free string with one trailing newline splits into exactly
the string without the newline. -/
lemma splitLines_append_nl {l : List Char}
    (h : ∀ c ∈ l, isLineBreakB c = false) : splitLines (l ++ ['\n']) = [l] := by
  rw [splitLines, splitLinesGo_append_nl [] h]
  simp

theorem fencedScan_none_of_no_ticks : ∀ {t : List Char}, hasTicks t = false → fencedScan t = none
  | [], _ => rfl
  | [c], _ => rfl
  | [c, d], _ => rfl
  | b1 :: b2 :: b3 :: r, h => by
    rw [hasTicks] at h
    have h1 : (isTick b1 && isTick b2 && isTick b3) = false := (Bool.or_eq_false_iff.mp h).1
    have h2 : hasTicks (b2 :: b3 :: r) = false := (Bool.or_eq_false_iff.mp h).2
    rw [fencedScan, if_neg (by simp [h1])]
    exact fencedScan_none_of_no_ticks h2

theorem replaceTicks_eq_self : ∀ {l : List Char}, hasTicks l = false → replaceTicks l = l
  | [], _ => rfl
  | [c], _ => rfl
  | [c, d], _ => rfl
  | b1 :: b2 :: b3 :: r, h => by
    rw [hasTicks] at h
    have h1 : (isTick b1 && isTick b2 && isTick b3) = false := (Bool.or_eq_false_iff.mp h).1
    have h2 : hasTicks (b2 :: b3 :: r) = false := (Bool.or_eq_false_iff.mp h).2
    rw [replaceTicks.eq_4, if_neg (by simp [h1]), replaceTicks_eq_self h2]

end AFC

namespace AFC

/-! Behaviour of each sanitizer stage on an already-sanitized single line
of the shape `sp4 ++ body ++ ['\n']` with a clean `body`. -/

lemma isIndentChar_eq_false_of_not_ws {c : Char} (h : isWsB c = false) :
    isIndentChar c = false := by
  rw [isWsB] at h
  simp only [Bool.or_eq_false_iff] at h
  simp [isIndentChar, h.1.1.1.1.1, h.1.1.1.1.2]

lemma hasTicks_cons_not_tick {c : Char} (l : List Char) (h : isTick c = false) :
    hasTicks (c :: l) = hasTicks l := by
  rw [hasTicks_cons, h]
  simp

lemma getLast?_some_of_ne_nil {l : List Char} (h : l ≠ []) :
    ∃ c, l.getLast? = some c := by
  cases hg : l.getLast? with
  | some c => exact ⟨c, rfl⟩
  | none => exact absurd (List.getLast?_eq_none_iff.mp hg) h

lemma stage1_clean {body : List Char} (hne : body ≠ [])
    (hhead : ∀ c, body.head? = some c → isWsB c = false)
    (hlast : ∀ c, body.getLast? = some c → isWsB c = false)
    (hticks : hasTicks body = false) :
    stripCodeFences (sp4 ++ body ++ ['\n']) = body := by
  have hstrip : stripWs (sp4 ++ body ++ ['\n']) = body := by
    rw [stripWs, List.append_assoc, dropWhile_append_all _ (by decide)]
    cases body with
    | nil => exact absurd rfl hne
    | cons b0 bs =>
      rw [List.cons_append, List.dropWhile_cons, if_neg (by simp [hhead b0 rfl]),
          show b0 :: (bs ++ ['\n']) = (b0 :: bs) ++ ['\n'] from rfl,
          rstripWs_append_ws (by decide)]
      exact rstripWs_eq_self hlast
  simp only [stripCodeFences]
  rw [hstrip, fencedScan_none_of_no_ticks hticks,
      startsTicks_eq_false_of_no_ticks hticks]
  simp

lemma stage2_clean {body : List Char} (hne : body ≠ [])
    (hnolb : ∀ c ∈ body, isLineBreakB c = false)
    (hhead : ∀ c, body.head? = some c → isWsB c = false)
    (hlast : ∀ c, body.getLast? = some c → isWsB c = false)
    (hticks : hasTicks body = false) :
    pruneTrailingFence body = body ++ ['\n'] := by
  have hsw : stripWs body = body := stripWs_eq_self hhead hlast
  rw [pruneTrailingFence, splitLines_nolb hne hnolb]
  rw [show takeUntilFence [body] =
        if startsTicks (stripWs body) then [] else body :: takeUntilFence [] from rfl,
      hsw, startsTicks_eq_false_of_no_ticks hticks]
  simp only [Bool.false_eq_true, if_false, takeUntilFence]
  rw [show joinNl [body] = body from rfl, rstripWs_eq_self hlast]

lemma stage3_clean {body : List Char} (hne : body ≠ [])
    (hnolb : ∀ c ∈ body, isLineBreakB c = false)
    (hhead : ∀ c, body.head? = some c → isWsB c = false)
    (hlast : ∀ c, body.getLast? = some c → isWsB c = false)
    (hdef : isDefLine body = false) :
    stripSignatureIfPresent (body ++ ['\n']) = (sp4 ++ body) ++ ['\n'] := by
  have hsw : stripWs body = body := stripWs_eq_self hhead hlast
  have hie : body.isEmpty = false := by
    cases body with
    | nil => exact absurd rfl hne
    | cons b0 bs => rfl
  have hil : indentLen body = 0 := by
    cases body with
    | nil => exact absurd rfl hne
    | cons b0 bs =>
      rw [indentLen, List.takeWhile_cons,
          if_neg (by simp [isIndentChar_eq_false_of_not_ws (hhead b0 rfl)])]
      rfl
  have hend : endsNl (sp4 ++ body) = false := by
    obtain ⟨c, hc⟩ := getLast?_some_of_ne_nil hne
    have hcw : isWsB c = false := hlast c hc
    have hcn : (c == '\n') = false := by
      cases hv : c == '\n' with
      | false => rfl
      | true =>
        rw [show c = '\n' from by exact beq_iff_eq.mp hv] at hcw
        exact absurd hcw (by decide)
    rw [endsNl, getLast?_append_right _ hne, hc]
    exact hcn
  have hmin : minIndentList [body] = 0 := by
    rw [show minIndentList [body] = indentLen body from rfl, hil]
  simp only [stripSignatureIfPresent]
  rw [splitLines_append_nl hnolb]
  simp only [hdef, hsw, hie, hmin, Bool.not_false, List.filter, List.filter_nil,
             List.map, List.map_nil]
  simp only [Bool.false_eq_true, if_false, List.isEmpty_cons,
             show ((0 : Nat) < 4) = True from by simp, if_true]
  rw [show joinNl [sp4 ++ body] = sp4 ++ body from rfl, hend]
  simp

lemma stage4_clean {body : List Char} (hne : body ≠ [])
    (hlast : ∀ c, body.getLast? = some c → isWsB c = false)
    (hticks : hasTicks body = false) :
    rstripWs (replaceTicks ((sp4 ++ body) ++ ['\n'])) ++ ['\n'] =
      (sp4 ++ body) ++ ['\n'] := by
  have h1 : hasTicks ((sp4 ++ body) ++ ['\n']) = false := by
    rw [List.append_assoc,
        show sp4 ++ (body ++ ['\n']) = ' ' :: ' ' :: ' ' :: ' ' :: (body ++ ['\n']) from rfl,
        hasTicks_cons_not_tick _ (by decide), hasTicks_cons_not_tick _ (by decide),
        hasTicks_cons_not_tick _ (by decide), hasTicks_cons_not_tick _ (by decide)]
    exact hasTicks_append_singleton hticks (by decide)
  rw [replaceTicks_eq_self h1, rstripWs_append_ws (by decide),
      rstripWs_eq_self (fun c hc => hlast c (by rwa [getLast?_append_right _ hne] at hc))]

end AFC

namespace AFC

/-- C2 counterexample: the sanitizer is not idempotent.  On the two-line
input `"a\n b"` (two non-blank lines of different indentation) one
application yields a four-space-plus-five-space indentation, and a second
application strips the first line's indent and re-indents every line again,
yielding a different string. -/
theorem sanitize_completion_not_idempotent :
    sanitize_completion (sanitize_completion ("a\n b").toList) ≠
      sanitize_completion ("a\n b").toList := by decide

/-- C2 amended: `sanitize_completion` is idempotent on every input whose
sanitized output is a single clean line — four spaces, then line-break-free
content that starts and ends with non-whitespace, contains no fence
delimiter, and is not a `def ...:` header, then one newline.  (On general
multi-line outputs idempotence fails, see the counterexample.) -/
theorem sanitize_completion_idempotent_on_clean_single_line
    (x body : List Char)
    (hshape : sanitize_completion x = sp4 ++ body ++ ['\n'])
    (hne : body ≠ [])
    (hnolb : ∀ c ∈ body, isLineBreakB c = false)
    (hhead : ∀ c, body.head? = some c → isWsB c = false)
    (hlast : ∀ c, body.getLast? = some c → isWsB c = false)
    (hticks : hasTicks body = false)
    (hdef : isDefLine body = false) :
    sanitize_completion (sanitize_completion x) = sanitize_completion x := by
  rw [hshape]
  simp only [sanitize_completion]
  rw [stage1_clean hne hhead hlast hticks,
      stage2_clean hne hnolb hhead hlast hticks,
      stage3_clean hne hnolb hhead hlast hdef,
      stage4_clean hne hlast hticks]

/-- Witness: the amended idempotence theorem applies to the concrete input
`"return 1"`, whose sanitized form is the clean single line
`"    return 1\n"`. -/
theorem sanitize_completion_idempotent_witness :
    sanitize_completion (sanitize_completion ("return 1").toList) =
      sanitize_completion ("return 1").toList :=
  sanitize_completion_idempotent_on_clean_single_line
    ("return 1").toList ("return 1").toList
    (by decide) (by decide) (by decide)
    (by
      intro c hc
      rw [show (("return 1").toList).head? = some 'r' from rfl] at hc
      injection hc with h
      subst h
      decide)
    (by
      intro c hc
      rw [show (("return 1").toList).getLast? = some '1' from rfl] at hc
      injection hc with h
      subst h
      decide)
    (by decide) (by decide)

end AFC

namespace AFC

/-!
Embedding of `ResultsTracker.calculate_pass_at_k` (src/results_tracker.py:42-85).
The judged-results file is modelled as the list of its parsed records, in file
order: pairs of a `task_id` and the boolean `passed` field.  Python floats are
modelled as exact rationals (the computation is a single division).
-/

/-- Value of the pass@k mapping for one k: a ratio, or the "N/A" sentinel. -/
inductive PassVal where
  | val : ℚ → PassVal
  | na : PassVal
deriving DecidableEq

/-- Insert one judged record into the insertion-ordered grouping (the Python
dict build-up of lines 46-57: new keys are appended, existing keys get the
outcome appended to their list). -/
def upsert : List (String × List Bool) → String → Bool → List (String × List Bool)
  | [], tid, p => [(tid, [p])]
  | (key, v) :: rest, tid, p =>
    if key = tid then (key, v ++ [p]) :: rest else (key, v) :: upsert rest tid p

/-- Group results by task id, preserving first-seen key order. -/
def groupResults (records : List (String × Bool)) : List (String × List Bool) :=
  records.foldl (fun m r => upsert m r.1 r.2) []

/-- Maximum outcome-list length across tasks; 0 when there are no tasks
(line 60: `max(...) if task_results else 0`). -/
def maxSamples (m : List (String × List Bool)) : Nat :=
  (m.map (fun p => p.2.length)).foldr Nat.max 0

/-- Did any of the first k outcomes pass (lines 73-75)? -/
def anyPassedIn (k : Nat) (results : List Bool) : Bool := (results.take k).any id

/-- Lookup in the result mapping (model of Python dict indexing). -/
def dictLookup (k : Nat) : List (Nat × PassVal) → Option PassVal
  | [] => none
  | (j, v) :: rest => if j = k then some v else dictLookup k rest

/-- Membership test on a list of naturals (model of Python `in`). -/
def listMemNat (k : Nat) : List Nat → Bool
  | [] => false
  | j :: rest => if j = k then true else listMemNat k rest

/-- The default configured range `list(range(1, 11))` (line 42). -/
def kRange : List Nat := List.range' 1 10

/-- Embedding of `calculate_pass_at_k`: group records, compute the ratio for
every k not exceeding `max_samples`, then fill every other requested k with
the "N/A" sentinel.  The division-by-zero guard of line 78 is kept although
its `0.0` branch is unreachable for k ≥ 1. -/
def calculate_pass_at_k (records : List (String × Bool)) (k_values : List Nat) :
    List (Nat × PassVal) :=
  let task_results := groupResults records
  let max_samples := maxSamples task_results
  let valid_k_values := k_values.filter (fun k => k ≤ max_samples)
  let computed := valid_k_values.map (fun k =>
    (k, PassVal.val
      (if 0 < task_results.length then
        (((task_results.filter (fun p => anyPassedIn k p.2)).length : ℚ) /
          (task_results.length : ℚ))
      else 0)))
  computed ++
    (k_values.filter (fun k => !listMemNat k valid_k_values)).map
      (fun k => (k, PassVal.na))

/-- The ratio computed for a valid k, as an abbreviation for the statements. -/
def passFraction (records : List (String × Bool)) (k : Nat) : ℚ :=
  let task_results := groupResults records
  if 0 < task_results.length then
    (((task_results.filter (fun p => anyPassedIn k p.2)).length : ℚ) /
      (task_results.length : ℚ))
  else 0

end AFC

namespace AFC

/-! Lookup lemmas for the pass@k result mapping. -/

lemma dictLookup_map_mem {l : List Nat} {k : Nat} (f : Nat → PassVal) (h : k ∈ l) :
    dictLookup k (l.map (fun j => (j, f j))) = some (f k) := by
  induction l with
  | nil => cases h
  | cons j r ih =>
    by_cases hj : j = k
    · subst hj
      simp [dictLookup]
    · have hk : k ∈ r := by
        rcases List.mem_cons.mp h with h1 | h2
        · exact absurd h1.symm hj
        · exact h2
      simp [dictLookup, hj, ih hk]

lemma dictLookup_map_not_mem {l : List Nat} {k : Nat} (f : Nat → PassVal) (h : ¬ k ∈ l) :
    dictLookup k (l.map (fun j => (j, f j))) = none := by
  induction l with
  | nil => rfl
  | cons j r ih =>
    have hj : j ≠ k := fun hjk => h (hjk ▸ List.mem_cons_self j r)
    have hk : ¬ k ∈ r := fun hkr => h (List.mem_cons_of_mem j hkr)
    simp [dictLookup, hj, ih hk]

lemma dictLookup_append_of_some {k : Nat} {A : List (Nat × PassVal)} {v : PassVal}
    (B : List (Nat × PassVal)) (h : dictLookup k A = some v) :
    dictLookup k (A ++ B) = some v := by
  induction A with
  | nil => simp [dictLookup] at h
  | cons a r ih =>
    obtain ⟨j, w⟩ := a
    by_cases hj : j = k
    · subst hj
      simp [dictLookup] at h ⊢
      exact h
    · simp [dictLookup, hj] at h ⊢
      exact ih h

lemma dictLookup_append_of_none {k : Nat} {A : List (Nat × PassVal)}
    (B : List (Nat × PassVal)) (h : dictLookup k A = none) :
    dictLookup k (A ++ B) = dictLookup k B := by
  induction A with
  | nil => rfl
  | cons a r ih =>
    obtain ⟨j, w⟩ := a
    by_cases hj : j = k
    · subst hj
      simp [dictLookup] at h
    · simp [dictLookup, hj] at h ⊢
      exact ih h

lemma listMemNat_iff {k : Nat} : ∀ {l : List Nat}, listMemNat k l = true ↔ k ∈ l
  | [] => by simp [listMemNat]
  | j :: r => by
    by_cases hj : j = k
    · subst hj
      simp [listMemNat]
    · rw [show listMemNat k (j :: r) = listMemNat k r from by simp [listMemNat, hj],
          listMemNat_iff]
      constructor
      · exact fun h => List.mem_cons_of_mem j h
      · intro h
        rcases List.mem_cons.mp h with h1 | h2
        · exact absurd h1.symm hj
        · exact h2

/-- Full characterization of a lookup in the mapping returned by
`calculate_pass_at_k`, for any requested k. -/
lemma calculate_pass_at_k_lookup (records : List (String × Bool)) (kvs : List Nat)
    (k : Nat) (hk : k ∈ kvs) :
    dictLookup k (calculate_pass_at_k records kvs) =
      if k ≤ maxSamples (groupResults records)
      then some (PassVal.val (passFraction records k))
      else some PassVal.na := by
  simp only [calculate_pass_at_k]
  by_cases hle : k ≤ maxSamples (groupResults records)
  · have hmem : k ∈ kvs.filter (fun j => decide (j ≤ maxSamples (groupResults records))) :=
      List.mem_filter.mpr ⟨hk, by simpa using hle⟩
    rw [dictLookup_append_of_some _ (dictLookup_map_mem _ hmem), if_pos hle]
    rfl
  · have hnot : ¬ k ∈ kvs.filter (fun j => decide (j ≤ maxSamples (groupResults records))) := by
      intro hmem
      exact hle (by simpa using (List.mem_filter.mp hmem).2)
    have hmem2 : k ∈ kvs.filter
        (fun j => !listMemNat j (kvs.filter (fun i => decide (i ≤ maxSamples (groupResults records))))) := by
      refine List.mem_filter.mpr ⟨hk, ?_⟩
      simp only [Bool.not_eq_true']
      cases hv : listMemNat k (kvs.filter (fun i => decide (i ≤ maxSamples (groupResults records)))) with
      | false => rfl
      | true => exact absurd (listMemNat_iff.mp hv) hnot
    rw [dictLookup_append_of_none _ (dictLookup_map_not_mem _ hnot),
        dictLookup_map_mem _ hmem2, if_neg hle]

lemma passFraction_nonneg (records : List (String × Bool)) (k : Nat) :
    0 ≤ passFraction records k := by
  rw [passFraction]
  split
  · positivity
  · exact le_refl 0

lemma passFraction_le_one (records : List (String × Bool)) (k : Nat) :
    passFraction records k ≤ 1 := by
  rw [passFraction]
  split
  · rename_i hpos
    rw [div_le_one (by exact_mod_cast hpos)]
    exact_mod_cast List.length_filter_le _ _
  · exact zero_le_one

end AFC

namespace AFC

/-- C1: for every judged-results input and every k in the configured range
1..10, the pass@k estimator returns the "N/A" sentinel exactly when k
exceeds the maximum outcome-list length across all problems (0 when there
are none), and for every other k it returns a ratio in [0, 1]. -/
theorem pass_at_k_na_iff_and_unit_interval (records : List (String × Bool))
    (k : Nat) (hk : k ∈ kRange) :
    (dictLookup k (calculate_pass_at_k records kRange) = some PassVal.na ↔
      maxSamples (groupResults records) < k) ∧
    (k ≤ maxSamples (groupResults records) →
      ∃ q : ℚ, dictLookup k (calculate_pass_at_k records kRange) =
        some (PassVal.val q) ∧ 0 ≤ q ∧ q ≤ 1) := by
  rw [calculate_pass_at_k_lookup records kRange k hk]
  constructor
  · by_cases hle : k ≤ maxSamples (groupResults records)
    · rw [if_pos hle]
      simp [Nat.not_lt.mpr hle]
    · rw [if_neg hle]
      simp [Nat.lt_of_not_le hle]
  · intro hle
    rw [if_pos hle]
    exact ⟨passFraction records k, rfl, passFraction_nonneg records k,
      passFraction_le_one records k⟩

/-- Witness for C1 at the one-record input `[("HumanEval/0", true)]` and
k = 1 (here `max_samples` is 1, so pass@1 is computable and equals 1). -/
theorem pass_at_k_na_iff_witness :
    (dictLookup 1 (calculate_pass_at_k [("HumanEval/0", true)] kRange) =
        some PassVal.na ↔
      maxSamples (groupResults [("HumanEval/0", true)]) < 1) ∧
    (1 ≤ maxSamples (groupResults [("HumanEval/0", true)]) →
      ∃ q : ℚ, dictLookup 1 (calculate_pass_at_k [("HumanEval/0", true)] kRange) =
        some (PassVal.val q) ∧ 0 ≤ q ∧ q ≤ 1) :=
  pass_at_k_na_iff_and_unit_interval [("HumanEval/0", true)] 1 (by decide)

/-- C4 counterexample: on an empty judged-results input the estimator does
not return 0.0 for the requested k = 1; it returns the "N/A" sentinel
(`max_samples` is 0, so every k in 1..10 is filtered out before the
division, and the `else 0.0` guard of line 78 is never reached). -/
theorem pass_at_k_empty_not_zero :
    dictLookup 1 (calculate_pass_at_k [] kRange) ≠ some (PassVal.val 0) ∧
    dictLookup 1 (calculate_pass_at_k [] kRange) = some PassVal.na := by
  constructor
  · decide
  · decide

/-- C4 amended: when the judged-results input contains no problems, the
estimator raises no division-by-zero error and returns the "N/A" sentinel
(not 0.0) for every requested k of the configured range 1..10. -/
theorem pass_at_k_empty_all_na :
    calculate_pass_at_k [] kRange = kRange.map (fun k => (k, PassVal.na)) := by
  decide

/-- C10: the mapping returned by `calculate_pass_at_k` is total on the
requested list of k values: every requested k has an entry, and each entry
is either a ratio in [0, 1] or the "N/A" sentinel, so the recording step
can index pass@1 through pass@10 without a missing-key failure. -/
theorem pass_at_k_total_on_requested (records : List (String × Bool))
    (kvs : List Nat) (k : Nat) (hk : k ∈ kvs) :
    ∃ v, dictLookup k (calculate_pass_at_k records kvs) = some v ∧
      (v = PassVal.na ∨ ∃ q : ℚ, v = PassVal.val q ∧ 0 ≤ q ∧ q ≤ 1) := by
  rw [calculate_pass_at_k_lookup records kvs k hk]
  by_cases hle : k ≤ maxSamples (groupResults records)
  · rw [if_pos hle]
    exact ⟨PassVal.val (passFraction records k), rfl,
      Or.inr ⟨passFraction records k, rfl, passFraction_nonneg records k,
        passFraction_le_one records k⟩⟩
  · rw [if_neg hle]
    exact ⟨PassVal.na, rfl, Or.inl rfl⟩

/-- Witness for C10 at a two-record input and the full default range with
k = 5 (not computable there, so the entry is the sentinel). -/
theorem pass_at_k_total_witness :
    ∃ v, dictLookup 5 (calculate_pass_at_k
        [("HumanEval/0", true), ("HumanEval/0", false)] kRange) = some v ∧
      (v = PassVal.na ∨ ∃ q : ℚ, v = PassVal.val q ∧ 0 ≤ q ∧ q ≤ 1) :=
  pass_at_k_total_on_requested [("HumanEval/0", true), ("HumanEval/0", false)]
    kRange 5 (by decide)

end AFC

namespace AFC

/-!
Embedding of `_select_task_ids` (src/inference.py:36-61).  The PRNG shuffle
(`random.seed` / `random.shuffle`) is modelled by an explicit reordering
function `shuffleFn`, applied exactly when the shuffle flag is set; theorems
that relate the output to the input collection assume it permutes its input.
The two environment controls are modelled as the optional strings
`TASK_IDS` and `TASK_LIMIT`.
-/

/-- Python `explicit.split(",")`, worker. -/
def splitCommaGo : List Char → List Char → List (List Char)
  | acc, [] => [acc.reverse]
  | acc, c :: rest =>
    if c = ',' then acc.reverse :: splitCommaGo [] rest
    else splitCommaGo (c :: acc) rest

/-- Python `explicit.split(",")`. -/
def splitComma (l : List Char) : List (List Char) := splitCommaGo [] l

/-- The explicit id set `{tid.strip() for tid in explicit.split(",") if tid.strip()}`
(src/inference.py:54), as the list of its (stripped, non-empty) members. -/
def parseWanted (s : String) : List (List Char) :=
  ((splitComma s.toList).map stripWs).filter (fun t => !t.isEmpty)

/-- Python truthiness of an optional env string (`if explicit:`). -/
def truthyStr : Option String → Bool
  | none => false
  | some s => !(s == "")

/-- Python `limit and limit.isdigit()` (ASCII digits). -/
def isDigitStr : Option String → Bool
  | none => false
  | some s => !(s == "") && s.toList.all (fun c => c.isDigit)

/-- Python `int(limit)` on a digit string. -/
def parseNatDigits (s : String) : Nat :=
  s.toList.foldl (fun n c => n * 10 + (c.toNat - 48)) 0

/-- The possibly shuffled working sequence (src/inference.py:45-50). -/
def seqOf (shuffle : Bool) (shuffleFn : List String → List String)
    (allIds : List String) : List String :=
  if shuffle then shuffleFn allIds else allIds

/-- Embedding of `_select_task_ids`: shuffle optionally, then an explicit id
set filters the sequence (taking precedence), else a digit limit takes a
prefix, else the whole sequence is returned. -/
def selectTaskIds (shuffle : Bool) (shuffleFn : List String → List String)
    (taskIdsEnv taskLimitEnv : Option String) (allIds : List String) :
    List String :=
  let task_ids := seqOf shuffle shuffleFn allIds
  if truthyStr taskIdsEnv then
    task_ids.filter (fun tid => (parseWanted (taskIdsEnv.getD "")).contains tid.toList)
  else if isDigitStr taskLimitEnv then
    task_ids.take (parseNatDigits (taskLimitEnv.getD ""))
  else task_ids

/-- C6: with an explicit id set configured, the selector returns exactly the
ids of the (possibly shuffled) sequence that belong to the parsed set, in
sequence order, and the numeric limit is ignored entirely; in particular the
set {"HumanEval/2"} with limit 5 over HumanEval/0..9 yields exactly
["HumanEval/2"]. -/
theorem selectTaskIds_explicit_set_wins (shuffle : Bool)
    (shuffleFn : List String → List String) (e limit1 limit2 : Option String)
    (allIds : List String) (he : truthyStr e = true) :
    (selectTaskIds shuffle shuffleFn e limit1 allIds =
      selectTaskIds shuffle shuffleFn e limit2 allIds) ∧
    (selectTaskIds shuffle shuffleFn e limit1 allIds =
      (seqOf shuffle shuffleFn allIds).filter
        (fun tid => (parseWanted (e.getD "")).contains tid.toList)) ∧
    (selectTaskIds false id (some "HumanEval/2") (some "5")
        ["HumanEval/0", "HumanEval/1", "HumanEval/2", "HumanEval/3",
         "HumanEval/4", "HumanEval/5", "HumanEval/6", "HumanEval/7",
         "HumanEval/8", "HumanEval/9"] = ["HumanEval/2"]) := by
  refine ⟨?_, ?_, ?_⟩
  · simp only [selectTaskIds, if_pos he]
  · simp only [selectTaskIds, if_pos he]
  · decide

/-- Witness for C6: the limit-ignoring equation at the concrete inputs of
the claim (explicit set {"HumanEval/2"}, limits 5 and none). -/
theorem selectTaskIds_explicit_set_wins_witness :
    selectTaskIds false id (some "HumanEval/2") (some "5")
        ["HumanEval/0", "HumanEval/1", "HumanEval/2", "HumanEval/3",
         "HumanEval/4", "HumanEval/5", "HumanEval/6", "HumanEval/7",
         "HumanEval/8", "HumanEval/9"] =
      selectTaskIds false id (some "HumanEval/2") none
        ["HumanEval/0", "HumanEval/1", "HumanEval/2", "HumanEval/3",
         "HumanEval/4", "HumanEval/5", "HumanEval/6", "HumanEval/7",
         "HumanEval/8", "HumanEval/9"] :=
  (selectTaskIds_explicit_set_wins false id (some "HumanEval/2") (some "5") none
    _ (by decide)).1

/-- C9: for every configuration whose shuffle permutes its input, every id
in the selector's output occurs in the input collection, and no id occurs
more often in the output than in the input. -/
theorem selectTaskIds_no_new_ids (shuffle : Bool)
    (shuffleFn : List String → List String) (e limit : Option String)
    (allIds : List String)
    (hperm : shuffle = true → (shuffleFn allIds).Perm allIds) (tid : String) :
    (tid ∈ selectTaskIds shuffle shuffleFn e limit allIds → tid ∈ allIds) ∧
    (selectTaskIds shuffle shuffleFn e limit allIds).count tid ≤
      allIds.count tid := by
  have hsub : (selectTaskIds shuffle shuffleFn e limit allIds).Sublist
      (seqOf shuffle shuffleFn allIds) := by
    rw [selectTaskIds]
    by_cases h1 : truthyStr e = true
    · rw [if_pos h1]
      exact List.filter_sublist _
    · rw [if_neg h1]
      by_cases h2 : isDigitStr limit = true
      · rw [if_pos h2]
        exact List.take_sublist _ _
      · rw [if_neg h2]
  have hp : (seqOf shuffle shuffleFn allIds).Perm allIds := by
    cases shuffle with
    | false => exact List.Perm.refl _
    | true => simpa [seqOf] using hperm rfl
  constructor
  · intro hmem
    exact (hp.mem_iff).mp (hsub.subset hmem)
  · exact le_of_le_of_eq (hsub.count_le tid) (hp.count_eq tid)

/-- Witness for C9 with a genuine shuffle (reversal) over a two-id
collection, an explicit set and no limit. -/
theorem selectTaskIds_no_new_ids_witness :
    (("HumanEval/0" : String) ∈
        selectTaskIds true List.reverse (some "HumanEval/0") none
          ["HumanEval/0", "HumanEval/1"] →
      ("HumanEval/0" : String) ∈ ["HumanEval/0", "HumanEval/1"]) ∧
    (selectTaskIds true List.reverse (some "HumanEval/0") none
        ["HumanEval/0", "HumanEval/1"]).count "HumanEval/0" ≤
      (["HumanEval/0", "HumanEval/1"] : List String).count "HumanEval/0" :=
  selectTaskIds_no_new_ids true List.reverse (some "HumanEval/0") none
    ["HumanEval/0", "HumanEval/1"] (fun _ => List.reverse_perm _) "HumanEval/0"

end AFC

namespace AFC

/-!
Embedding of the backend selection (src/inference.py:15-34) and of the
backend adapters' `generate_one_completion` failure handling.  The external
network call is modelled by an explicit outcome parameter.
-/

/-- The five selectable generation backends. -/
inductive Backend where
  | langgraph
  | langchain
  | qwenAgent
  | crewai
  | direct
deriving DecidableEq

/-- Env-flag parsing `os.getenv("USE_X", "false").lower() == "true"`
(src/inference.py:15-18), performed on the character list. -/
def flagEnabled (v : Option String) : Bool :=
  (v.getD "false").toList.map Char.toLower == ("true").toList

/-- Embedding of the module-level backend dispatch (src/inference.py:20-34):
a plain if/elif chain choosing the first enabled framework, with the direct
OpenAI call as the fallback.  It is total: no configuration is rejected. -/
def selectBackend (useLanggraph useLangchain useQwenAgent useCrewai : Bool) :
    Backend :=
  if useLanggraph then Backend.langgraph
  else if useLangchain then Backend.langchain
  else if useQwenAgent then Backend.qwenAgent
  else if useCrewai then Backend.crewai
  else Backend.direct

/-- Modelled from the spec: spec.md section 6 declares the backend flags
mutually exclusive, with `multiple simultaneous selections is a fatal
configuration error` (section 7: the process exits before any work); this is
the spec-side selection relation, returning `none` for the fatal case, to be
compared with the code's `selectBackend`. -/
def selectBackendSpec (useLanggraph useLangchain useQwenAgent useCrewai : Bool) :
    Option Backend :=
  let enabled := (if useLanggraph then 1 else 0) + (if useLangchain then 1 else 0) +
    (if useQwenAgent then 1 else 0) + (if useCrewai then 1 else 0)
  if 1 < enabled then none
  else if useLanggraph then some Backend.langgraph
  else if useLangchain then some Backend.langchain
  else if useQwenAgent then some Backend.qwenAgent
  else if useCrewai then some Backend.crewai
  else some Backend.direct

/-- C3 counterexample: with both `USE_LANGGRAPH=true` and `USE_LANGCHAIN=true`
the spec demands a fatal configuration error, but the code's dispatch
silently selects the LangGraph backend and proceeds. -/
theorem multiple_backends_not_fatal :
    selectBackendSpec (flagEnabled (some "true")) (flagEnabled (some "true"))
        (flagEnabled none) (flagEnabled none) = none ∧
    selectBackend (flagEnabled (some "true")) (flagEnabled (some "true"))
        (flagEnabled none) (flagEnabled none) = Backend.langgraph := by
  constructor
  · decide
  · decide

/-- C3 amended: when several backend flags are enabled simultaneously, no
error is raised; the program silently picks the first enabled backend in the
fixed precedence LangGraph, LangChain, Qwen-Agent, CrewAI, with the direct
OpenAI call when no flag is enabled. -/
theorem selectBackend_precedence (g l q c : Bool) :
    (selectBackend g l q c = Backend.langgraph ↔ g = true) ∧
    (selectBackend g l q c = Backend.langchain ↔ (g = false ∧ l = true)) ∧
    (selectBackend g l q c = Backend.qwenAgent ↔
      (g = false ∧ l = false ∧ q = true)) ∧
    (selectBackend g l q c = Backend.crewai ↔
      (g = false ∧ l = false ∧ q = false ∧ c = true)) ∧
    (selectBackend g l q c = Backend.direct ↔
      (g = false ∧ l = false ∧ q = false ∧ c = false)) := by
  revert g l q c
  decide

/-- Outcome of the direct OpenAI chat-completions call: a response whose
message content may be empty/None, or a raised exception. -/
inductive CallResult where
  | ok : Option String → CallResult
  | failure : CallResult

/-- Embedding of `generate_one_completion` in src/scripts/openAI_models.py
(lines 27-65): there is no try/except, so a failing call propagates; a
successful call strips the content (`(content or "").strip()`) and
sanitizes it. -/
def openai_generate_one_completion : CallResult → Except Unit (List Char)
  | CallResult.ok content =>
    Except.ok (sanitize_completion (stripWs (content.getD "").toList))
  | CallResult.failure => Except.error ()

/-- Outcome of the CrewAI `crew.kickoff()` call; the `.raw`-attribute string
extraction of lines 90-95 is abstracted into the carried string. -/
inductive CrewOutcome where
  | ok : String → CrewOutcome
  | failure : CrewOutcome

/-- Embedding of `generate_one_completion` in src/scripts/crewai_agent.py
(lines 67-110): the whole call is wrapped in try/except and any failure is
replaced by the placeholder body `"    pass\n"`. -/
def crewai_generate_one_completion : CrewOutcome → List Char
  | CrewOutcome.ok raw => sanitize_completion raw.toList
  | CrewOutcome.failure => ("    pass\n").toList

/-- Outcome of the Qwen-Agent run: a final assistant content string, an
empty/assistant-free response, or an exception in the try block. -/
inductive QwenOutcome where
  | response : String → QwenOutcome
  | noResponse : QwenOutcome
  | failure : QwenOutcome

/-- Markdown-extraction of src/scripts/qwen_agent.py lines 98-108: if the
content contains a lowercase fenced python tag, take from after the tag up
to the next fence (or to the end when none or immediately adjacent), and
strip; else use the content unchanged. -/
def qwenExtract (content : List Char) : List Char :=
  match findSubIdx (ticks ++ pythonTag) content with
  | some i =>
    let s := i + 9
    match findSubIdx ticks (content.drop s) with
    | some e0 =>
      if 0 < e0 then stripWs ((content.drop s).take e0)
      else stripWs (content.drop s)
    | none => stripWs (content.drop s)
  | none => content

/-- Embedding of `generate_one_completion` in src/scripts/qwen_agent.py
(lines 63-124): fenced-code extraction and sanitization on success, fixed
placeholder bodies for an empty response and for a caught exception. -/
def qwen_generate_one_completion : QwenOutcome → List Char
  | QwenOutcome.response content => sanitize_completion (qwenExtract content.toList)
  | QwenOutcome.noResponse => ("    pass  # No response generated").toList
  | QwenOutcome.failure => ("    pass  # Error generating completion").toList

/-- C5 counterexample: for the direct OpenAI backend a failing generation
call is not caught and substituted with a placeholder; it propagates as an
error. -/
theorem openai_failure_propagates :
    openai_generate_one_completion CallResult.failure = Except.error () := rfl

/-- C5 amended: the agent-framework backends (CrewAI, Qwen-Agent) catch a
single generation-call failure and return a fixed placeholder body, but the
direct OpenAI backend has no handler, so its failure propagates and the
sample-count invariant is preserved only for the catching backends. -/
theorem backend_failure_policy :
    crewai_generate_one_completion CrewOutcome.failure = ("    pass\n").toList ∧
    qwen_generate_one_completion QwenOutcome.failure =
      ("    pass  # Error generating completion").toList ∧
    qwen_generate_one_completion QwenOutcome.noResponse =
      ("    pass  # No response generated").toList ∧
    openai_generate_one_completion CallResult.failure = Except.error () :=
  ⟨rfl, rfl, rfl, rfl⟩

end AFC

namespace AFC

/-!
Embedding of the metrics ledger (src/results_tracker.py:19-40 and 119-165).
The CSV file is modelled by its state: `none` when the file does not exist,
`some rows` otherwise.  The contents of one data row (pass@k formatting,
timestamp, cost) are I/O-level string formatting over floats and the clock
and are abstracted into the appended `row` parameter; the claims under
verification concern only the file-state evolution.
-/

/-- The fixed header row (src/results_tracker.py:22-36). -/
def headers : List String :=
  ["Approach/Framework", "Dataset/Benchmark",
   "pass@1", "pass@2", "pass@3", "pass@4", "pass@5",
   "pass@6", "pass@7", "pass@8", "pass@9", "pass@10",
   "Time (sec)", "Input Tokens", "Output Tokens", "Total Tokens",
   "Estimated Cost ($)", "Timestamp", "Model", "Tasks", "Samples per Task"]

/-- Embedding of `ensure_csv_exists` (lines 19-40): create the file with the
header row only when it does not exist; otherwise leave it untouched. -/
def ensure_csv_exists : Option (List (List String)) → Option (List (List String))
  | none => some [headers]
  | some rows => some rows

/-- Embedding of the appending write of `add_result` (lines 163-165): open
in append mode (which creates a missing file without a header) and write the
single data row after all existing rows. -/
def add_result : Option (List (List String)) → List String →
    Option (List (List String))
  | none, row => some [row]
  | some rows, row => some (rows ++ [row])

/-- One recording invocation as the orchestrator performs it
(src/inference.py:202-222): construct `ResultsTracker()` — whose constructor
runs `ensure_csv_exists` — then `add_result`. -/
def recordRun (file : Option (List (List String))) (row : List String) :
    Option (List (List String)) :=
  add_result (ensure_csv_exists file) row

/-- C8: recording appends exactly one data row after the unchanged existing
rows, the header is written only when the file was absent, and two record
calls starting from an absent ledger yield exactly one header row followed
by the two data rows in order. -/
theorem ledger_append_only (rows : List (List String)) (r1 r2 : List String)
    (h1 : r1 ≠ headers) (h2 : r2 ≠ headers) :
    (recordRun (some rows) r1 = some (rows ++ [r1])) ∧
    (recordRun none r1 = some [headers, r1]) ∧
    (recordRun (recordRun none r1) r2 = some [headers, r1, r2]) ∧
    (([headers, r1, r2] : List (List String)).count headers = 1) := by
  refine ⟨rfl, rfl, rfl, ?_⟩
  have hb1 : (r1 == headers) = false := by simpa using h1
  have hb2 : (r2 == headers) = false := by simpa using h2
  simp [List.count_cons, hb1, hb2]

/-- Witness for C8 at an existing one-row ledger and two concrete non-header
data rows. -/
theorem ledger_append_only_witness :
    (recordRun (some [["x"]]) ["OpenAI Direct"] = some [["x"], ["OpenAI Direct"]]) ∧
    (recordRun none ["OpenAI Direct"] = some [headers, ["OpenAI Direct"]]) ∧
    (recordRun (recordRun none ["OpenAI Direct"]) ["CrewAI Agent"] =
      some [headers, ["OpenAI Direct"], ["CrewAI Agent"]]) ∧
    (([headers, ["OpenAI Direct"], ["CrewAI Agent"]] : List (List String)).count
      headers = 1) :=
  ledger_append_only [["x"]] ["OpenAI Direct"] ["CrewAI Agent"]
    (by decide) (by decide)

end AFC
